import Mathlib

/-!
Verification of the Minecraft pack automation scripts.

This file gives a shallow embedding of the decision logic of the
repository's Python scripts and proves the specification's claims about
them:

* `scripts/resolve_versions.py` — grouping of Minecraft releases by
  resource-pack format and the staleness ("needs upload") decision
  (`group_by_pack_format`, `fetch_modrinth_versions`, `get_pack_version`);
* `scripts/read_version.py` — the priority chain resolving a pack version
  string (`main`);
* `scripts/update_pack.py` — the `pack.mcmeta` patcher
  (`update_pack_mcmeta`).

Network and filesystem effects are modelled by passing the fetched or
read data explicitly; `sys.exit(1)` with a diagnostic is modelled as
`Except.error` carrying the message.
-/

/-! ## Data model of `resolve_versions.py` -/

/-- Mirrors the `MinecraftVersion` dataclass: a release identifier string
paired with its integer resource-pack format. -/

structure MinecraftVersion where
  version : String
  pack_format : Int
deriving DecidableEq

/-- Mirrors the dict returned by `fetch_modrinth_versions`: the set of all
game versions referenced by published artifacts (`game_versions`, a Python
set modelled as a duplicate-free-by-construction list where only
membership is consumed) and the mapping from artifact version number to
the game versions that artifact declares (`pack_versions`, a Python dict
modelled as an association list in insertion order). -/
structure ModrinthData where
  game_versions : List String
  pack_versions : List (String × List String)
deriving DecidableEq

/-- Association-list lookup, mirroring Python `dict.get` /
`key in dict`. -/
def alistLookup (l : List (String × List String)) (k : String) :
    Option (List String) :=
  match l with
  | [] => none
  | (k0, v) :: rest => if k0 = k then some v else alistLookup rest k

/-- One element of the Modrinth `/versions` response used by
`fetch_modrinth_versions`: the fields `version_number` and
`game_versions`. -/
structure ApiVersion where
  version_number : String
  game_versions : List String
deriving DecidableEq

/-- `game_versions.update(game_vers)`: add each element to the set if
absent. -/
def addGameVersions (acc : List String) (gvs : List String) : List String :=
  gvs.foldl (fun l s => if s ∈ l then l else l ++ [s]) acc

/-- `pack_versions[version_number].extend(game_vers)`, creating the entry
when absent (Python dict insertion order preserved). -/
def extendEntry (pvs : List (String × List String)) (k : String)
    (gvs : List String) : List (String × List String) :=
  match pvs with
  | [] => [(k, gvs)]
  | (k0, v0) :: rest =>
    if k0 = k then (k0, v0 ++ gvs) :: rest
    else (k0, v0) :: extendEntry rest k gvs

/-- The loop body of `fetch_modrinth_versions` over one API version. -/
def foldVersion (acc : ModrinthData) (v : ApiVersion) : ModrinthData :=
  let gv := addGameVersions acc.game_versions v.game_versions
  if v.version_number ≠ "" then
    { game_versions := gv
      pack_versions := extendEntry acc.pack_versions v.version_number v.game_versions }
  else
    { game_versions := gv, pack_versions := acc.pack_versions }

/-- `fetch_modrinth_versions` (lines 148–202): given the result of
`resolve_modrinth_project_id` (`none` when the project lookup returned
404 "not found") and the versions list the API would return for an
existing project, build the Registry Snapshot.  When the project does not
exist the versions endpoint is never called and an empty snapshot is
returned directly. -/
def fetch_modrinth_versions (canonical_id : Option String)
    (versions : List ApiVersion) : ModrinthData :=
  match canonical_id with
  | none => { game_versions := [], pack_versions := [] }
  | some _ => versions.foldl foldVersion { game_versions := [], pack_versions := [] }

/-- A format group accumulator during the first loop of
`group_by_pack_format`: the `all_versions` and `missing_versions` lists
in input order. -/
abbrev RawGroup := List String × List String

/-- One iteration of the grouping loop (lines 248–262): append the
release's version to its format's `all_versions`, and to
`missing_versions` when the version is absent from the registry's
game-version set.  A new group is created at the end on first sight of a
format id, mirroring Python dict insertion order. -/
def addRelease (gameVers : List String) (groups : List (Int × RawGroup))
    (r : MinecraftVersion) : List (Int × RawGroup) :=
  match groups with
  | [] =>
    [(r.pack_format,
      ([r.version], if r.version ∈ gameVers then [] else [r.version]))]
  | (pf, g) :: rest =>
    if pf = r.pack_format then
      (pf, (g.1 ++ [r.version],
            if r.version ∈ gameVers then g.2 else g.2 ++ [r.version])) :: rest
    else
      (pf, g) :: addRelease gameVers rest r

/-- The whole grouping loop of `group_by_pack_format`. -/
def buildRawGroups (gameVers : List String)
    (releases : List MinecraftVersion) : List (Int × RawGroup) :=
  releases.foldl (addRelease gameVers) []

/-- Lexicographic comparison of character lists by Unicode code point,
the order Python uses to compare strings. -/
def pyLeB : List Char → List Char → Bool
  | [], _ => true
  | _ :: _, [] => false
  | c :: cs, d :: ds =>
    if c.val.toNat < d.val.toNat then true
    else if d.val.toNat < c.val.toNat then false
    else pyLeB cs ds

/-- Python string `<=`: lexicographic by code point. -/
def strLe (a b : String) : Prop := pyLeB a.data b.data = true

instance : DecidableRel strLe := fun a b =>
  inferInstanceAs (Decidable (pyLeB a.data b.data = true))

/-- Python `versions.sort()`: lexicographic string sort (stable;
stability is irrelevant because the order is antisymmetric on equal
strings). -/
def sortVersions (l : List String) : List String :=
  l.insertionSort strLe

/-- Python `set(a) != set(b)` negated: equality of the two lists viewed
as sets. -/
def listSetEq (a b : List String) : Bool :=
  a.all (fun v => decide (v ∈ b)) && b.all (fun v => decide (v ∈ a))

/-- The final Format Group record produced by `group_by_pack_format`. -/
structure FormatGroup where
  pack_format : Int
  all_versions : List String
  missing_versions : List String
  needs_upload : Bool
  version_range : String
  version_number : String
  display_name : String
  upload_reason : String
deriving DecidableEq

/-- Reason string of rule (b): up to three missing versions joined by
", ", with an ellipsis when there are more than three. -/
def ruleBReason (missing : List String) : String :=
  "New Minecraft versions: " ++ String.intercalate ", " (missing.take 3) ++
    (if 3 < missing.length then "..." else "")

/-- The range label (lines 271–275): the single version when the group
has one member, else `"<first>-<last>"` of the (sorted) list.
(`versions[0]`/`versions[-1]` are total in the source because every
group holds at least one release; the `[]` branch is unreachable.) -/
def versionRange (versions : List String) : String :=
  match versions with
  | [v] => v
  | _ => versions.headD "" ++ "-" ++ versions.getLastD ""

/-- The second loop of `group_by_pack_format` (lines 264–304) for one
group: sort the version list, derive the range label, artifact version
number and display name, then decide `needs_upload` by the three-rule
priority chain. -/
def mkFormatGroup (modrinth : ModrinthData) (pack_version : String)
    (pf : Int) (raw : RawGroup) : FormatGroup :=
  let versions := sortVersions raw.1
  let version_range := versionRange versions
  let version_number := pack_version ++ "-pf" ++ toString pf
  let decision : Bool × String :=
    match alistLookup modrinth.pack_versions version_number with
    | none =>
      (true, "Pack version " ++ pack_version ++ " not on Modrinth for PF" ++
        toString pf)
    | some existing =>
      if raw.2.isEmpty = false then (true, ruleBReason raw.2)
      else if listSetEq existing versions = false then
        (true, "Game version list mismatch")
      else (false, "Up-to-date")
  { pack_format := pf
    all_versions := versions
    missing_versions := raw.2
    needs_upload := decision.1
    version_range := version_range
    version_number := version_number
    display_name := "Pack Format " ++ toString pf ++ " (" ++ version_range ++ ")"
    upload_reason := decision.2 }

/-- `group_by_pack_format` (lines 227–306): group the releases by pack
format, then derive each group's labels and upload decision. -/
def group_by_pack_format (releases : List MinecraftVersion)
    (modrinth : ModrinthData) (pack_version : String) : List FormatGroup :=
  (buildRawGroups modrinth.game_versions releases).map
    (fun p => mkFormatGroup modrinth pack_version p.1 p.2)

/-- Inputs of `resolve_versions.get_pack_version`: the `PACK_VERSION`
environment variable (unset modelled as `none`), and the two candidate
`VERSION` files, each `none` when absent, `some none` when present but
unreadable (read raises), `some (some c)` when readable with content
`c`. -/
structure PackVersionSources where
  env_pack_version : Option String
  cwd_version_file : Option (Option String)
  automation_version_file : Option (Option String)
deriving DecidableEq

/-- The file-reading tail of `get_pack_version` (lines 54–73):
`Except.error msg` models printing `msg` to stderr and `sys.exit(1)`. -/
def get_pack_version_files (src : PackVersionSources) : Except String String :=
  match src.cwd_version_file with
  | some (some content) => Except.ok content.trim
  | some none => Except.error "ERROR: Failed to read caller VERSION file"
  | none =>
    match src.automation_version_file with
    | some (some content) => Except.ok content.trim
    | some none => Except.error "ERROR: Failed to read automation VERSION file"
    | none =>
      Except.error
        "ERROR: VERSION not found. Provide PACK_VERSION env or a VERSION file."

/-- `resolve_versions.get_pack_version` (lines 41–73): environment
variable first (Python truthiness: a set-but-empty variable falls
through), then the two `VERSION` files, else exit 1. -/
def get_pack_version (src : PackVersionSources) : Except String String :=
  match src.env_pack_version with
  | some v => if v ≠ "" then Except.ok v.trim else get_pack_version_files src
  | none => get_pack_version_files src

/-- Inputs of `read_version.main`: the optional CLI override, the value
`read_from_version_json` would return (already `none` on any read/parse
failure or falsy field), the `VERSION` file content when the file exists,
the `GITHUB_REF_TYPE`/`GITHUB_REF_NAME` environment values (empty string
when unset, as `os.environ.get(..., "")` yields), and the latest git tag
when one exists. -/
structure ReadVersionEnv where
  override : Option String
  version_json_value : Option String
  version_file : Option String
  github_ref_type : String
  github_ref_name : String
  latest_tag : Option String
deriving DecidableEq

/-- Outcome of running a script: what it wrote to stdout and its exit
code. -/
structure RunResult where
  stdout : String
  exit_code : Nat
deriving DecidableEq

/-- `read_version.main` (lines 37–73): the priority chain
override → `version.json` → `VERSION` file → `GITHUB_REF` tag → latest
git tag.  `print(x)` appends a newline; when nothing resolves the script
prints the empty string with no newline and still exits 0. -/
def read_version_main (e : ReadVersionEnv) : RunResult :=
  if e.override.getD "" ≠ "" then
    { stdout := e.override.getD "" ++ "\n", exit_code := 0 }
  else if e.version_json_value.getD "" ≠ "" then
    { stdout := e.version_json_value.getD "" ++ "\n", exit_code := 0 }
  else if e.version_file.isSome then
    { stdout := (e.version_file.getD "").trim ++ "\n", exit_code := 0 }
  else if e.github_ref_type = "tag" ∧ e.github_ref_name ≠ "" then
    { stdout := e.github_ref_name ++ "\n", exit_code := 0 }
  else if e.latest_tag.getD "" ≠ "" then
    { stdout := e.latest_tag.getD "" ++ "\n", exit_code := 0 }
  else
    { stdout := "", exit_code := 0 }

/-- A JSON value, as far as the patcher inspects one. -/
inductive Json where
  | null : Json
  | bool : Bool → Json
  | num : Int → Json
  | str : String → Json
  | arr : List Json → Json
  | obj : List (String × Json) → Json

/-- Key lookup in a JSON object (`key in data` / `data.get(key)`). -/
def lookupField (fields : List (String × Json)) (k : String) : Option Json :=
  match fields with
  | [] => none
  | (k0, v) :: rest => if k0 = k then some v else lookupField rest k

/-- Key assignment in a JSON object (`data[key] = v`): replaces in place,
appends at the end when the key is new. -/
def setField (fields : List (String × Json)) (k : String) (v : Json) :
    List (String × Json) :=
  match fields with
  | [] => [(k, v)]
  | (k0, v0) :: rest =>
    if k0 = k then (k0, v) :: rest else (k0, v0) :: setField rest k v

/-- The state of the `pack.mcmeta` file: absent, present but not valid
JSON, or parsed. -/
inductive McmetaFile where
  | missing : McmetaFile
  | invalidJson : McmetaFile
  | parsed : Json → McmetaFile

/-- Whitespace as stripped by Python `str.strip()` (the ASCII cases). -/
def isWS (c : Char) : Bool :=
  c = ' ' || c = '\t' || c = '\n' || c = '\r'

/-- Python `s.strip()` on the character list. -/
def trimChars (s : List Char) : List Char :=
  ((s.dropWhile isWS).reverse.dropWhile isWS).reverse

/-- Everything before the first occurrence of `sep` (the whole list when
`sep` never occurs): Python `s.split(sep)[0]`. -/
def takeBeforeFirst (sep : List Char) (s : List Char) : List Char :=
  match s with
  | [] => []
  | c :: rest =>
    if sep.isPrefixOf (c :: rest) then [] else c :: takeBeforeFirst sep rest

/-- The separator `" (Auto-updated"` used to strip a previously appended
suffix. -/
def autoSep : List Char := " (Auto-updated".data

/-- `current_desc.split(" (Auto-updated")[0].strip()`. -/
def stripAutoSuffix (s : String) : String :=
  String.mk (trimChars (takeBeforeFirst autoSep s.data))

/-- The suffix appended to the description for a target game version. -/
def autoSuffix (v : String) : String :=
  " (Auto-updated for Minecraft " ++ v ++ ")"

/-- The description rewrite of `update_pack_mcmeta` (lines 49–54), on the
(already `pack_format`-updated) "pack" object: `none` models the
`AttributeError` raised by `.split` when the existing description value
is not a string, which the generic handler turns into a failure. -/
def newDescription (pack : List (String × Json)) (base_description : Option String)
    (minecraft_version : String) : Option String :=
  match base_description with
  | some b => some (b ++ autoSuffix minecraft_version)
  | none =>
    match lookupField pack "description" with
    | some (Json.str s) => some (stripAutoSuffix s ++ autoSuffix minecraft_version)
    | some _ => none
    | none => some (stripAutoSuffix "Resource Pack" ++ autoSuffix minecraft_version)

/-- `update_pack_mcmeta` (lines 13–69) as a transform on the file state,
returning the success flag and the resulting file.  Every failure path
(missing file, invalid JSON, top-level value not an object with a "pack"
object, non-string description) returns before the write, leaving the
file untouched. -/
def update_pack_mcmeta (file : McmetaFile) (minecraft_version : String)
    (pack_format : Int) (base_description : Option String) :
    Bool × McmetaFile :=
  match file with
  | McmetaFile.missing => (false, McmetaFile.missing)
  | McmetaFile.invalidJson => (false, McmetaFile.invalidJson)
  | McmetaFile.parsed j =>
    match j with
    | Json.obj fields =>
      match lookupField fields "pack" with
      | some (Json.obj packFields) =>
        let packFields1 := setField packFields "pack_format" (Json.num pack_format)
        match newDescription packFields1 base_description minecraft_version with
        | some d =>
          let packFields2 := setField packFields1 "description" (Json.str d)
          (true, McmetaFile.parsed (Json.obj (setField fields "pack" (Json.obj packFields2))))
        | none => (false, McmetaFile.parsed j)
      | some _ => (false, McmetaFile.parsed j)
      | none => (false, McmetaFile.parsed j)
    | _ => (false, McmetaFile.parsed j)

/-- The description field of a parsed manifest, when present as a
string. -/
def manifestDescription (file : McmetaFile) : Option String :=
  match file with
  | McmetaFile.parsed (Json.obj fields) =>
    match lookupField fields "pack" with
    | some (Json.obj packFields) =>
      match lookupField packFields "description" with
      | some (Json.str s) => some s
      | some _ => none
      | none => none
    | some _ => none
    | none => none
  | _ => none

/-- Association lookup in the raw group accumulator. -/
def rawLookup (groups : List (Int × RawGroup)) (pf : Int) : Option RawGroup :=
  match groups with
  | [] => none
  | (pf0, g) :: rest => if pf0 = pf then some g else rawLookup rest pf

/-- The `all_versions` list accumulated for a format id (empty when the
format id has no group yet). -/
def rawAV (groups : List (Int × RawGroup)) (pf : Int) : List String :=
  ((rawLookup groups pf).map Prod.fst).getD []

/-- The versions of the releases carrying a given format id, in catalog
order. -/
def avSpec (rs : List MinecraftVersion) (pf : Int) : List String :=
  (rs.filter (fun r => decide (r.pack_format = pf))).map MinecraftVersion.version

/-- Invariant of the grouping loop: in every accumulated group the
missing list is the in-order filter of the version list by absence from
the registry's game-version set, and the version list is non-empty. -/
def RawInv (gameVers : List String) (e : Int × RawGroup) : Prop :=
  e.2.2 = e.2.1.filter (fun v => decide (v ∉ gameVers)) ∧ e.2.1 ≠ []

/-- The format ids present in the accumulator, in insertion order. -/
def rawKeys (groups : List (Int × RawGroup)) : List Int :=
  groups.map Prod.fst

/-- Total number of occurrences of a version string across all
accumulated `all_versions` lists. -/
def avCount (groups : List (Int × RawGroup)) (v : String) : Nat :=
  (groups.map (fun e => e.2.1.count v)).sum

def mdEmpty : ModrinthData := { game_versions := [], pack_versions := [] }

def rsSingle : List MinecraftVersion := [⟨"1.20", 15⟩]

def gSingle : FormatGroup := mkFormatGroup mdEmpty "1.0.0" 15 (["1.20"], ["1.20"])

def rsDemo : List MinecraftVersion := [⟨"1.20", 15⟩, ⟨"1.20.1", 15⟩, ⟨"1.21", 18⟩]

def mdMismatch : ModrinthData :=
  { game_versions := ["1.20", "1.20.1"], pack_versions := [("1.0.0-pf15", ["1.20"])] }

def gMismatch : FormatGroup := mkFormatGroup mdMismatch "1.0.0" 15 (["1.20", "1.20.1"], [])

def gFirstUpload : FormatGroup :=
  mkFormatGroup mdEmpty "2.0.0" 18 (["1.21"], ["1.21"])

def mcmetaDemo : McmetaFile :=
  McmetaFile.parsed (Json.obj [("pack",
    Json.obj [("pack_format", Json.num 9), ("description", Json.str "My Pack")])])

def mcmetaDemoOut : McmetaFile :=
  McmetaFile.parsed (Json.obj [("pack",
    Json.obj [("pack_format", Json.num 15),
      ("description", Json.str "My Pack (Auto-updated for Minecraft 1.20.1)")])])

/-- Input of `read_version.main` where no version source resolves at all:
no CLI override, no usable `version.json`, no `VERSION` file, no
`GITHUB_REF` tag, no git tag. -/
def noSources : ReadVersionEnv :=
  { override := none, version_json_value := none, version_file := none,
    github_ref_type := "", github_ref_name := "", latest_tag := none }

theorem pyLeB_refl : ∀ l, pyLeB l l = true := by
  intro l
  induction l with
  | nil => rfl
  | cons c cs ih => simp [pyLeB, ih]

theorem pyLeB_total : ∀ a b, pyLeB a b = true ∨ pyLeB b a = true := by
  intro a
  induction a with
  | nil => intro b; left; rfl
  | cons c cs ih =>
    intro b
    cases b with
    | nil => right; rfl
    | cons d ds =>
      rcases Nat.lt_trichotomy c.val.toNat d.val.toNat with h | h | h
      · left; simp [pyLeB, h]
      · have h1 : ¬ c.val.toNat < d.val.toNat := by omega
        have h2 : ¬ d.val.toNat < c.val.toNat := by omega
        rcases ih ds with hd | hd
        · left; simp [pyLeB, h1, h2, hd]
        · right; simp [pyLeB, h1, h2, hd]
      · right; simp [pyLeB, h]

theorem pyLeB_trans : ∀ a b c, pyLeB a b = true → pyLeB b c = true →
    pyLeB a c = true := by
  intro a
  induction a with
  | nil => intro b c _ _; rfl
  | cons x xs ih =>
    intro b c hab hbc
    cases b with
    | nil => simp [pyLeB] at hab
    | cons y ys =>
      cases c with
      | nil => simp [pyLeB] at hbc
      | cons z zs =>
        simp only [pyLeB] at hab hbc ⊢
        by_cases hxy : x.val.toNat < y.val.toNat <;>
          by_cases hyx : y.val.toNat < x.val.toNat <;>
          by_cases hyz : y.val.toNat < z.val.toNat <;>
          by_cases hzy : z.val.toNat < y.val.toNat <;>
          by_cases hxz : x.val.toNat < z.val.toNat <;>
          by_cases hzx : z.val.toNat < x.val.toNat <;>
          simp_all <;>
          first
          | omega
          | exact ih ys zs hab hbc
          | exact Or.inr (ih ys zs hab hbc)

theorem strLe_refl (a : String) : strLe a a := pyLeB_refl a.data

theorem mk_pack_format (md : ModrinthData) (pv : String) (pf : Int) (raw : RawGroup) :
    (mkFormatGroup md pv pf raw).pack_format = pf := rfl

theorem mk_all_versions (md : ModrinthData) (pv : String) (pf : Int) (raw : RawGroup) :
    (mkFormatGroup md pv pf raw).all_versions = sortVersions raw.1 := rfl

theorem mk_missing_versions (md : ModrinthData) (pv : String) (pf : Int) (raw : RawGroup) :
    (mkFormatGroup md pv pf raw).missing_versions = raw.2 := rfl

theorem mk_version_number (md : ModrinthData) (pv : String) (pf : Int) (raw : RawGroup) :
    (mkFormatGroup md pv pf raw).version_number = pv ++ "-pf" ++ toString pf := rfl

theorem mk_needs_upload_of_none (md : ModrinthData) (pv : String) (pf : Int) (raw : RawGroup)
    (h : alistLookup md.pack_versions (pv ++ "-pf" ++ toString pf) = none) :
    (mkFormatGroup md pv pf raw).needs_upload = true ∧
    (mkFormatGroup md pv pf raw).upload_reason =
      "Pack version " ++ pv ++ " not on Modrinth for PF" ++ toString pf := by
  unfold mkFormatGroup
  simp [h]

theorem mk_decision_of_some (md : ModrinthData) (pv : String) (pf : Int) (raw : RawGroup)
    (existing : List String)
    (h : alistLookup md.pack_versions (pv ++ "-pf" ++ toString pf) = some existing) :
    (raw.2 ≠ [] →
      (mkFormatGroup md pv pf raw).needs_upload = true ∧
      (mkFormatGroup md pv pf raw).upload_reason = ruleBReason raw.2) ∧
    (raw.2 = [] → listSetEq existing (sortVersions raw.1) = false →
      (mkFormatGroup md pv pf raw).needs_upload = true ∧
      (mkFormatGroup md pv pf raw).upload_reason = "Game version list mismatch") ∧
    (raw.2 = [] → listSetEq existing (sortVersions raw.1) = true →
      (mkFormatGroup md pv pf raw).needs_upload = false ∧
      (mkFormatGroup md pv pf raw).upload_reason = "Up-to-date") := by
  unfold mkFormatGroup
  simp only [h]
  refine ⟨fun hm => ?_, fun hm hs => ?_, fun hm hs => ?_⟩
  · have h2 : raw.2.isEmpty = false := List.isEmpty_eq_false.mpr hm
    simp [h2]
  · simp [hm, hs]
  · simp [hm, hs]

theorem mem_group_iff (rs : List MinecraftVersion) (md : ModrinthData) (pv : String)
    (g : FormatGroup) :
    g ∈ group_by_pack_format rs md pv ↔
      ∃ p ∈ buildRawGroups md.game_versions rs, g = mkFormatGroup md pv p.1 p.2 := by
  unfold group_by_pack_format
  simp only [List.mem_map]
  constructor
  · rintro ⟨p, hp, rfl⟩; exact ⟨p, hp, rfl⟩
  · rintro ⟨p, hp, rfl⟩; exact ⟨p, hp, rfl⟩

theorem rawInv_addRelease (gameVers : List String) (acc : List (Int × RawGroup))
    (r : MinecraftVersion) (hacc : ∀ e ∈ acc, RawInv gameVers e) :
    ∀ e ∈ addRelease gameVers acc r, RawInv gameVers e := by
  induction acc with
  | nil =>
    intro e he
    simp only [addRelease, List.mem_singleton] at he
    subst he
    by_cases hv : r.version ∈ gameVers <;>
      simp [RawInv, hv, List.filter, decide_not]
  | cons hd tl ih =>
    obtain ⟨pf, g⟩ := hd
    intro e he
    by_cases hpf : pf = r.pack_format
    · simp only [addRelease, if_pos hpf, List.mem_cons] at he
      rcases he with he | he
      · subst he
        obtain ⟨h1, h2⟩ := hacc (pf, g) (List.mem_cons_self _ _)
        constructor
        · simp only [decide_not] at h1
          by_cases hv : r.version ∈ gameVers <;>
            simp [hv, List.filter_append, h1, List.filter, decide_not]
        · simp
      · exact hacc e (List.mem_cons_of_mem _ he)
    · simp only [addRelease, if_neg hpf, List.mem_cons] at he
      rcases he with he | he
      · subst he
        exact hacc _ (List.mem_cons_self _ _)
      · exact ih (fun x hx => hacc x (List.mem_cons_of_mem _ hx)) e he

theorem rawInv_foldl (gameVers : List String) (rs : List MinecraftVersion) :
    ∀ acc, (∀ e ∈ acc, RawInv gameVers e) →
      ∀ e ∈ rs.foldl (addRelease gameVers) acc, RawInv gameVers e := by
  induction rs with
  | nil => intro acc hacc e he; exact hacc e he
  | cons r rs ih =>
    intro acc hacc e he
    exact ih (addRelease gameVers acc r) (rawInv_addRelease gameVers acc r hacc) e he

theorem rawInv_build (gameVers : List String) (rs : List MinecraftVersion) :
    ∀ e ∈ buildRawGroups gameVers rs, RawInv gameVers e :=
  rawInv_foldl gameVers rs [] (by intro e he; cases he)

theorem rawAV_cons_eq (pf : Int) (g : RawGroup) (rest : List (Int × RawGroup)) :
    rawAV ((pf, g) :: rest) pf = g.1 := by
  simp [rawAV, rawLookup]

theorem rawAV_cons_ne (pf0 pf : Int) (g : RawGroup) (rest : List (Int × RawGroup))
    (h : pf0 ≠ pf) : rawAV ((pf0, g) :: rest) pf = rawAV rest pf := by
  simp [rawAV, rawLookup, h]

theorem rawAV_addRelease (gameVers : List String) (acc : List (Int × RawGroup))
    (r : MinecraftVersion) (pf : Int) :
    rawAV (addRelease gameVers acc r) pf =
      rawAV acc pf ++ (if r.pack_format = pf then [r.version] else []) := by
  induction acc with
  | nil =>
    by_cases hpf : r.pack_format = pf <;>
      simp [addRelease, rawAV, rawLookup, hpf]
  | cons hd tl ih =>
    obtain ⟨pf0, g⟩ := hd
    by_cases h0r : pf0 = r.pack_format
    · by_cases h0 : pf0 = pf
      · subst h0
        simp only [addRelease, if_pos h0r]
        rw [rawAV_cons_eq, rawAV_cons_eq, if_pos h0r.symm]
      · subst h0r
        simp only [addRelease, eq_self_iff_true, if_true]
        have hrp : r.pack_format ≠ pf := h0
        rw [rawAV_cons_ne _ _ _ _ hrp, rawAV_cons_ne _ _ _ _ hrp, if_neg hrp,
          List.append_nil]
    · by_cases h0 : pf0 = pf
      · subst h0
        simp only [addRelease, if_neg h0r]
        have hrp : r.pack_format ≠ pf0 := fun hc => h0r hc.symm
        rw [rawAV_cons_eq, rawAV_cons_eq, if_neg hrp, List.append_nil]
      · simp only [addRelease, if_neg h0r]
        rw [rawAV_cons_ne _ _ _ _ h0, rawAV_cons_ne _ _ _ _ h0, ih]

theorem rawAV_foldl (gameVers : List String) (rs : List MinecraftVersion) :
    ∀ acc pf, rawAV (rs.foldl (addRelease gameVers) acc) pf =
      rawAV acc pf ++ avSpec rs pf := by
  induction rs with
  | nil => intro acc pf; simp [avSpec]
  | cons r rs ih =>
    intro acc pf
    rw [List.foldl_cons, ih]
    rw [rawAV_addRelease]
    by_cases hpf : r.pack_format = pf <;>
      simp [avSpec, hpf, List.filter]

theorem rawAV_build (gameVers : List String) (rs : List MinecraftVersion) (pf : Int) :
    rawAV (buildRawGroups gameVers rs) pf = avSpec rs pf := by
  have := rawAV_foldl gameVers rs [] pf
  simpa [rawAV, rawLookup] using this

theorem rawKeys_addRelease (gameVers : List String) (acc : List (Int × RawGroup))
    (r : MinecraftVersion) :
    rawKeys (addRelease gameVers acc r) =
      if r.pack_format ∈ rawKeys acc then rawKeys acc
      else rawKeys acc ++ [r.pack_format] := by
  induction acc with
  | nil => simp [addRelease, rawKeys]
  | cons hd tl ih =>
    obtain ⟨pf0, g⟩ := hd
    by_cases h0r : pf0 = r.pack_format
    · subst h0r
      simp [addRelease, rawKeys]
    · have hne : r.pack_format ≠ pf0 := fun hc => h0r hc.symm
      simp only [addRelease, if_neg h0r]
      have hcons : rawKeys ((pf0, g) :: addRelease gameVers tl r) =
          pf0 :: rawKeys (addRelease gameVers tl r) := rfl
      have hcons2 : rawKeys ((pf0, g) :: tl) = pf0 :: rawKeys tl := rfl
      rw [hcons, hcons2, ih]
      by_cases hm : r.pack_format ∈ rawKeys tl
      · rw [if_pos hm, if_pos (List.mem_cons_of_mem _ hm)]
      · rw [if_neg hm, if_neg (by simp [List.mem_cons, hne, hm]), List.cons_append]

theorem rawKeys_nodup_addRelease (gameVers : List String)
    (acc : List (Int × RawGroup)) (r : MinecraftVersion)
    (h : (rawKeys acc).Nodup) : (rawKeys (addRelease gameVers acc r)).Nodup := by
  rw [rawKeys_addRelease]
  by_cases hm : r.pack_format ∈ rawKeys acc
  · rwa [if_pos hm]
  · rw [if_neg hm]
    rw [List.nodup_append]
    exact ⟨h, List.nodup_singleton _, by simpa [List.disjoint_right] using hm⟩

theorem rawKeys_nodup_build (gameVers : List String) (rs : List MinecraftVersion) :
    (rawKeys (buildRawGroups gameVers rs)).Nodup := by
  have main : ∀ (l : List MinecraftVersion) (acc : List (Int × RawGroup)),
      (rawKeys acc).Nodup → (rawKeys (l.foldl (addRelease gameVers) acc)).Nodup := by
    intro l
    induction l with
    | nil => intro acc hacc; exact hacc
    | cons r l ih =>
      intro acc hacc
      exact ih _ (rawKeys_nodup_addRelease gameVers acc r hacc)
  exact main rs [] (by simp [rawKeys])

theorem rawLookup_of_mem (groups : List (Int × RawGroup)) (e : Int × RawGroup)
    (hmem : e ∈ groups) (hnd : (rawKeys groups).Nodup) :
    rawLookup groups e.1 = some e.2 := by
  induction groups with
  | nil => cases hmem
  | cons hd tl ih =>
    obtain ⟨pf0, g⟩ := hd
    rcases List.mem_cons.mp hmem with he | he
    · subst he
      simp [rawLookup]
    · have hnd' : (rawKeys tl).Nodup := (List.nodup_cons.mp hnd).2
      have hpf0 : pf0 ∉ rawKeys tl := (List.nodup_cons.mp hnd).1
      have hne : pf0 ≠ e.1 := by
        intro hc
        exact hpf0 (hc ▸ List.mem_map_of_mem Prod.fst he)
      simp only [rawLookup, if_neg hne]
      exact ih he hnd'

theorem avCount_addRelease (gameVers : List String) (acc : List (Int × RawGroup))
    (r : MinecraftVersion) (v : String) :
    avCount (addRelease gameVers acc r) v =
      avCount acc v + [r.version].count v := by
  induction acc with
  | nil => simp [addRelease, avCount]
  | cons hd tl ih =>
    obtain ⟨pf0, g⟩ := hd
    by_cases h0r : pf0 = r.pack_format
    · simp only [addRelease, if_pos h0r, avCount, List.map_cons, List.sum_cons,
        List.count_append]
      omega
    · simp only [addRelease, if_neg h0r, avCount, List.map_cons, List.sum_cons]
      have ih' := ih
      simp only [avCount] at ih'
      omega

theorem avCount_foldl (gameVers : List String) (rs : List MinecraftVersion) :
    ∀ acc v, avCount (rs.foldl (addRelease gameVers) acc) v =
      avCount acc v + (rs.map MinecraftVersion.version).count v := by
  induction rs with
  | nil => intro acc v; simp
  | cons r rs ih =>
    intro acc v
    rw [List.foldl_cons, ih, avCount_addRelease]
    simp [List.count_cons]
    omega

theorem avCount_build (gameVers : List String) (rs : List MinecraftVersion)
    (v : String) :
    avCount (buildRawGroups gameVers rs) v =
      (rs.map MinecraftVersion.version).count v := by
  have := avCount_foldl gameVers rs [] v
  simpa [avCount] using this

theorem count_flatten_eq_sum (v : String) :
    ∀ ls : List (List String), (ls.flatten).count v = (ls.map (fun l => l.count v)).sum := by
  intro ls
  induction ls with
  | nil => simp
  | cons l ls ih => simp [List.count_append, ih]

theorem getLastD_mem : ∀ (l : List String) (d : String), l ≠ [] → l.getLastD d ∈ l := by
  intro l
  induction l with
  | nil => intro d h; exact absurd rfl h
  | cons a t ih =>
    intro d _
    cases t with
    | nil => simp [List.getLastD]
    | cons b t' =>
      rw [List.getLastD_cons]
      exact List.mem_cons_of_mem _ (ih a (by simp))

theorem sorted_headD_le (l : List String) (h : l.Sorted strLe) :
    ∀ x ∈ l, strLe (l.headD "") x := by
  cases l with
  | nil => intro x hx; cases hx
  | cons a t =>
    intro x hx
    rcases List.mem_cons.mp hx with hx | hx
    · subst hx; exact strLe_refl _
    · exact List.rel_of_sorted_cons h x hx

theorem sorted_le_getLastD : ∀ (l : List String) (d : String),
    l.Sorted strLe → ∀ x ∈ l, strLe x (l.getLastD d) := by
  intro l
  induction l with
  | nil => intro d _ x hx; cases hx
  | cons a t ih =>
    intro d h x hx
    cases t with
    | nil =>
      simp only [List.mem_singleton] at hx
      subst hx
      simpa [List.getLastD] using strLe_refl x
    | cons b t' =>
      rw [List.getLastD_cons]
      rcases List.mem_cons.mp hx with hx | hx
      · subst hx
        have hmem : (b :: t').getLastD x ∈ b :: t' := getLastD_mem _ _ (by simp)
        exact List.rel_of_sorted_cons h _ hmem
      · exact ih a h.of_cons x hx

theorem versionRange_of_length_one (l : List String) (h : l.length = 1) :
    versionRange l = l.headD "" := by
  obtain ⟨v, rfl⟩ := List.length_eq_one.mp h
  rfl

theorem versionRange_of_length_ne_one (l : List String) (h : l.length ≠ 1) :
    versionRange l = l.headD "" ++ "-" ++ l.getLastD "" := by
  match l with
  | [] => rfl
  | [v] => exact absurd rfl h
  | a :: b :: t => rfl

theorem sortVersions_perm (l : List String) : (sortVersions l).Perm l :=
  List.perm_insertionSort _ l

theorem sortVersions_sorted (l : List String) : (sortVersions l).Sorted strLe := by
  haveI h1 : IsTotal String strLe := ⟨fun a b => pyLeB_total a.data b.data⟩
  haveI h2 : IsTrans String strLe := ⟨fun a b c => pyLeB_trans a.data b.data c.data⟩
  exact List.sorted_insertionSort strLe l

theorem sortVersions_ne_nil (l : List String) (h : l ≠ []) : sortVersions l ≠ [] := by
  intro hc
  apply h
  have := (sortVersions_perm l).length_eq
  rw [hc] at this
  exact List.length_eq_zero.mp this.symm

/-- Shorthand for the list the grouping loop accumulates for a format
id, proved equal to the in-order filter of the catalog. -/
theorem raw_fst_eq_avSpec (rs : List MinecraftVersion) (gameVers : List String)
    (p : Int × RawGroup) (hp : p ∈ buildRawGroups gameVers rs) :
    p.2.1 = avSpec rs p.1 := by
  have hnd := rawKeys_nodup_build gameVers rs
  have hlook := rawLookup_of_mem _ p hp hnd
  have h1 : rawAV (buildRawGroups gameVers rs) p.1 = p.2.1 := by
    simp [rawAV, hlook]
  rw [← h1, rawAV_build]

/-- C1: for every format group produced by the resolver, if the group's
derived `version_number` is not a key of the Registry Snapshot's artifact
mapping, then `needs_upload` is true, regardless of all other fields
(rule-a precedence). -/
theorem claim_rule_a_precedence (rs : List MinecraftVersion) (md : ModrinthData)
    (pv : String) (g : FormatGroup) (hg : g ∈ group_by_pack_format rs md pv)
    (hnone : alistLookup md.pack_versions g.version_number = none) :
    g.needs_upload = true := by
  rcases (mem_group_iff rs md pv g).mp hg with ⟨p, hp, rfl⟩
  rw [mk_version_number] at hnone
  exact (mk_needs_upload_of_none md pv p.1 p.2 hnone).1

theorem claim_rule_a_precedence_witness : gSingle.needs_upload = true :=
  claim_rule_a_precedence rsSingle mdEmpty "1.0.0" gSingle (by decide) (by decide)

/-- C2: for every format group whose `version_number` is a key of the
artifact mapping, the remaining rules are evaluated in order (b) then (c)
then (d): a non-empty missing list forces an upload with the
missing-versions reason; otherwise a set-insensitive coverage mismatch
forces an upload with the mismatch reason; otherwise the group is
up-to-date.  In particular a strict-subset coverage with an empty missing
list falls to rule (c), not rule (b). -/
theorem claim_rule_priority_order (rs : List MinecraftVersion) (md : ModrinthData)
    (pv : String) (g : FormatGroup) (existing : List String)
    (hg : g ∈ group_by_pack_format rs md pv)
    (hsome : alistLookup md.pack_versions g.version_number = some existing) :
    (g.missing_versions ≠ [] →
      g.needs_upload = true ∧ g.upload_reason = ruleBReason g.missing_versions) ∧
    (g.missing_versions = [] → listSetEq existing g.all_versions = false →
      g.needs_upload = true ∧ g.upload_reason = "Game version list mismatch") ∧
    (g.missing_versions = [] → listSetEq existing g.all_versions = true →
      g.needs_upload = false ∧ g.upload_reason = "Up-to-date") := by
  rcases (mem_group_iff rs md pv g).mp hg with ⟨p, hp, rfl⟩
  rw [mk_version_number] at hsome
  have h := mk_decision_of_some md pv p.1 p.2 existing hsome
  exact ⟨h.1, h.2.1, h.2.2⟩

theorem claim_rule_priority_order_witness :
    gMismatch.needs_upload = true ∧ gMismatch.upload_reason = "Game version list mismatch" :=
  (claim_rule_priority_order rsDemo mdMismatch "1.0.0" gMismatch ["1.20"]
    (by decide) (by decide)).2.1 (by decide) (by decide)

/-- C5: when the project lookup yields "not found", `fetch_versions`
returns an empty Registry Snapshot (not an error), and consequently every
format group built from the catalog is marked `needs_upload` under rule
(a), since no `version_number` is a key of the empty mapping. -/
theorem claim_not_found_all_upload (vs : List ApiVersion)
    (rs : List MinecraftVersion) (pv : String) :
    fetch_modrinth_versions none vs = { game_versions := [], pack_versions := [] } ∧
    ∀ g ∈ group_by_pack_format rs (fetch_modrinth_versions none vs) pv,
      g.needs_upload = true ∧
      g.upload_reason =
        "Pack version " ++ pv ++ " not on Modrinth for PF" ++ toString g.pack_format := by
  refine ⟨rfl, ?_⟩
  intro g hg
  rcases (mem_group_iff rs _ pv g).mp hg with ⟨p, hp, rfl⟩
  have h := mk_needs_upload_of_none (fetch_modrinth_versions none vs) pv p.1 p.2 rfl
  exact ⟨h.1, by rw [mk_pack_format]; exact h.2⟩

theorem claim_not_found_all_upload_witness :
    gFirstUpload.needs_upload = true ∧
    gFirstUpload.upload_reason = "Pack version 2.0.0 not on Modrinth for PF18" :=
  (claim_not_found_all_upload [] [⟨"1.21", 18⟩] "2.0.0").2 gFirstUpload (by decide)

/-- C3: the grouping step partitions the releases by format id: group
keys are pairwise distinct, each group's version list is (up to the later
sort) exactly the catalog's releases carrying that format id, and the
concatenation of all groups' `all_versions` lists is a permutation of the
full input release list — no release dropped or duplicated. -/
theorem claim_grouping_partition (rs : List MinecraftVersion) (md : ModrinthData)
    (pv : String) :
    ((group_by_pack_format rs md pv).map FormatGroup.pack_format).Nodup ∧
    (∀ g ∈ group_by_pack_format rs md pv,
      g.all_versions.Perm (avSpec rs g.pack_format) ∧ g.all_versions ≠ []) ∧
    ((group_by_pack_format rs md pv).map FormatGroup.all_versions).flatten.Perm
      (rs.map MinecraftVersion.version) := by
  have hkeys : (group_by_pack_format rs md pv).map FormatGroup.pack_format =
      rawKeys (buildRawGroups md.game_versions rs) := by
    unfold group_by_pack_format rawKeys
    rw [List.map_map]
    rfl
  refine ⟨?_, ?_, ?_⟩
  · rw [hkeys]
    exact rawKeys_nodup_build md.game_versions rs
  · intro g hg
    rcases (mem_group_iff rs md pv g).mp hg with ⟨p, hp, rfl⟩
    have hav := raw_fst_eq_avSpec rs md.game_versions p hp
    have hinv := rawInv_build md.game_versions rs p hp
    constructor
    · rw [mk_all_versions, mk_pack_format, ← hav]
      exact sortVersions_perm p.2.1
    · rw [mk_all_versions]
      exact sortVersions_ne_nil p.2.1 hinv.2
  · rw [List.perm_iff_count]
    intro v
    rw [count_flatten_eq_sum]
    have hmap : (group_by_pack_format rs md pv).map FormatGroup.all_versions =
        (buildRawGroups md.game_versions rs).map (fun p => sortVersions p.2.1) := by
      unfold group_by_pack_format
      rw [List.map_map]
      rfl
    rw [hmap, List.map_map]
    have hcongr : ((buildRawGroups md.game_versions rs).map
          ((fun l => l.count v) ∘ fun p => sortVersions p.2.1)) =
        (buildRawGroups md.game_versions rs).map (fun p => p.2.1.count v) := by
      apply List.map_congr_left
      intro p hp
      exact (sortVersions_perm p.2.1).count_eq v
    rw [hcongr]
    have := avCount_build md.game_versions rs v
    simpa [avCount] using this

theorem claim_grouping_partition_witness :
    gMismatch.all_versions.Perm (avSpec rsDemo gMismatch.pack_format) ∧
    gMismatch.all_versions ≠ [] :=
  (claim_grouping_partition rsDemo mdMismatch "1.0.0").2.1 gMismatch (by decide)

/-- C4: every group's `version_number` is `"<pack_version>-pf<format_id>"`
and, after the sort, `version_range` is the single version for a
one-element group and `"<first>-<last>"` otherwise, where the head and
last of the sorted list are its minimum and maximum in the lexicographic
string order the sort uses. -/
theorem claim_group_labels (rs : List MinecraftVersion) (md : ModrinthData)
    (pv : String) (g : FormatGroup) (hg : g ∈ group_by_pack_format rs md pv) :
    g.version_number = pv ++ "-pf" ++ toString g.pack_format ∧
    g.all_versions ≠ [] ∧
    g.all_versions.Sorted strLe ∧
    (g.all_versions.length = 1 → g.version_range = g.all_versions.headD "") ∧
    (g.all_versions.length ≠ 1 →
      g.version_range = g.all_versions.headD "" ++ "-" ++ g.all_versions.getLastD "") ∧
    ∀ x ∈ g.all_versions,
      strLe (g.all_versions.headD "") x ∧ strLe x (g.all_versions.getLastD "") := by
  rcases (mem_group_iff rs md pv g).mp hg with ⟨p, hp, rfl⟩
  have hinv := rawInv_build md.game_versions rs p hp
  have hne : sortVersions p.2.1 ≠ [] := sortVersions_ne_nil p.2.1 hinv.2
  have hsorted := sortVersions_sorted p.2.1
  refine ⟨rfl, hne, hsorted, ?_, ?_, ?_⟩
  · intro h1
    exact versionRange_of_length_one _ h1
  · intro h1
    exact versionRange_of_length_ne_one _ h1
  · intro x hx
    exact ⟨sorted_headD_le _ hsorted x hx, sorted_le_getLastD _ "" hsorted x hx⟩

theorem claim_group_labels_witness :
    gMismatch.version_range =
      gMismatch.all_versions.headD "" ++ "-" ++ gMismatch.all_versions.getLastD "" :=
  (claim_group_labels rsDemo mdMismatch "1.0.0" gMismatch
    (by decide)).2.2.2.2.1 (by decide)

/-- C9: in every format group the missing list is a subset (as a set) of
the version list, it is the in-order filter of the catalog's release
order and is never sorted, while `all_versions` is sorted before the
range label is derived — witnessed concretely by a catalog whose input
order ("1.9" before "1.10") disagrees with the lexicographic sort. -/
theorem claim_missing_versions_order :
    (∀ (rs : List MinecraftVersion) (md : ModrinthData) (pv : String)
        (g : FormatGroup), g ∈ group_by_pack_format rs md pv →
      g.missing_versions =
        (avSpec rs g.pack_format).filter (fun v => decide (v ∉ md.game_versions)) ∧
      g.all_versions = sortVersions (avSpec rs g.pack_format) ∧
      ∀ v ∈ g.missing_versions, v ∈ g.all_versions) ∧
    ((group_by_pack_format [⟨"1.9", 15⟩, ⟨"1.10", 15⟩]
        { game_versions := [], pack_versions := [] } "1.0.0").map
          FormatGroup.missing_versions = [["1.9", "1.10"]] ∧
     (group_by_pack_format [⟨"1.9", 15⟩, ⟨"1.10", 15⟩]
        { game_versions := [], pack_versions := [] } "1.0.0").map
          FormatGroup.all_versions = [["1.10", "1.9"]]) := by
  constructor
  · intro rs md pv g hg
    rcases (mem_group_iff rs md pv g).mp hg with ⟨p, hp, rfl⟩
    have hinv := rawInv_build md.game_versions rs p hp
    have hav := raw_fst_eq_avSpec rs md.game_versions p hp
    refine ⟨?_, ?_, ?_⟩
    · rw [mk_missing_versions, mk_pack_format, ← hav]
      exact hinv.1
    · rw [mk_all_versions, mk_pack_format, ← hav]
    · intro v hv
      rw [mk_missing_versions] at hv
      rw [mk_all_versions]
      rw [hinv.1] at hv
      exact (sortVersions_perm p.2.1).mem_iff.mpr (List.mem_of_mem_filter hv)
  · exact ⟨by decide, by decide⟩

theorem claim_missing_versions_order_witness :
    gSingle.missing_versions =
      (avSpec rsSingle gSingle.pack_format).filter
        (fun v => decide (v ∉ mdEmpty.game_versions)) ∧
    gSingle.all_versions = sortVersions (avSpec rsSingle gSingle.pack_format) ∧
    ∀ v ∈ gSingle.missing_versions, v ∈ gSingle.all_versions :=
  claim_missing_versions_order.1 rsSingle mdEmpty "1.0.0" gSingle (by decide)

theorem takeBeforeFirst_front (sep : List Char) :
    ∀ s, takeBeforeFirst sep s <+: s := by
  intro s
  induction s with
  | nil => simp [takeBeforeFirst]
  | cons c rest ih =>
    simp only [takeBeforeFirst]
    split
    · exact List.nil_prefix
    · exact (List.cons_prefix_cons).mpr ⟨rfl, ih⟩

theorem not_infix_takeBeforeFirst (sep : List Char) (hsep : sep ≠ []) :
    ∀ s, ¬ sep <:+: takeBeforeFirst sep s := by
  intro s
  induction s with
  | nil => simp [takeBeforeFirst, hsep]
  | cons c rest ih =>
    simp only [takeBeforeFirst]
    split
    · simp [hsep]
    · rename_i hnp
      intro hinf
      rcases List.infix_cons_iff.mp hinf with hpre | hinf2
      · have h1 : c :: takeBeforeFirst sep rest <+: c :: rest :=
          (List.cons_prefix_cons).mpr ⟨rfl, takeBeforeFirst_front sep rest⟩
        exact hnp ( List.isPrefixOf_iff_prefix.mpr (hpre.trans h1))
      · exact ih hinf2

theorem dropWhile_dropWhile (p : Char → Bool) :
    ∀ l : List Char, (l.dropWhile p).dropWhile p = l.dropWhile p := by
  intro l
  induction l with
  | nil => rfl
  | cons c rest ih =>
    by_cases h : p c <;> simp [List.dropWhile_cons, h, ih]

theorem dropWhile_head_not (p : Char → Bool) :
    ∀ (l : List Char) (c : Char) (rest : List Char),
      l.dropWhile p = c :: rest → p c = false := by
  intro l
  induction l with
  | nil => intro c rest h; cases h
  | cons a tl ih =>
    intro c rest h
    rw [List.dropWhile_cons] at h
    by_cases ha : p a
    · rw [if_pos ha] at h
      exact ih c rest h
    · rw [if_neg ha] at h
      cases h
      simpa using ha

theorem dropWhile_of_front (p : Char → Bool) (w y : List Char)
    (hw : w <+: y) (hy : y.dropWhile p = y) : w.dropWhile p = w := by
  cases w with
  | nil => rfl
  | cons c w' =>
    obtain ⟨r, hr⟩ := hw
    have hcy : p c = false := by
      cases y with
      | nil => cases hr
      | cons b y' =>
        have : c = b := by
          have := congrArg List.head? hr
          simpa using this
        subst this
        exact dropWhile_head_not p (c :: y') c y' hy
    rw [List.dropWhile_cons, if_neg (by simp [hcy])]

theorem reverse_dropWhile_front (p : Char → Bool) (y : List Char) :
    (y.reverse.dropWhile p).reverse <+: y := by
  have h : (y.reverse.dropWhile p).reverse <+: y.reverse.reverse :=
    List.reverse_prefix.mpr (List.dropWhile_suffix p)
  simpa using h

theorem trimChars_no_leading (x : List Char) :
    (trimChars x).dropWhile isWS = trimChars x :=
  dropWhile_of_front isWS _ (x.dropWhile isWS)
    (reverse_dropWhile_front isWS (x.dropWhile isWS))
    (dropWhile_dropWhile isWS x)

theorem trimChars_idem (x : List Char) : trimChars (trimChars x) = trimChars x := by
  have h0 := trimChars_no_leading x
  have h1 : trimChars (trimChars x) =
      ((trimChars x).reverse.dropWhile isWS).reverse := by
    show (((trimChars x).dropWhile isWS).reverse.dropWhile isWS).reverse = _
    rw [h0]
  rw [h1]
  have h2 : (trimChars x).reverse.dropWhile isWS = (trimChars x).reverse := by
    have h3 : (trimChars x).reverse = (x.dropWhile isWS).reverse.dropWhile isWS := by
      show ((((x.dropWhile isWS).reverse.dropWhile isWS).reverse).reverse) = _
      rw [List.reverse_reverse]
    rw [h3, dropWhile_dropWhile]
  rw [h2, List.reverse_reverse]

theorem trimChars_within (x : List Char) : trimChars x <:+: x := by
  obtain ⟨a, ha⟩ := (List.dropWhile_suffix isWS : x.dropWhile isWS <:+ x)
  obtain ⟨b, hb⟩ := reverse_dropWhile_front isWS (x.dropWhile isWS)
  refine ⟨a, b, ?_⟩
  show a ++ ((x.dropWhile isWS).reverse.dropWhile isWS).reverse ++ b = x
  rw [List.append_assoc, hb, ha]

theorem takeBeforeFirst_append (sep B t : List Char)
    (h : ∀ u, u <:+ B → u ≠ [] → ¬ sep.isPrefixOf (u ++ (sep ++ t)) = true) :
    takeBeforeFirst sep (B ++ (sep ++ t)) = B := by
  induction B with
  | nil =>
    simp only [List.nil_append]
    cases hst : sep ++ t with
    | nil => rfl
    | cons c rest =>
      have hp : sep.isPrefixOf (sep ++ t) = true :=
        List.isPrefixOf_iff_prefix.mpr (List.prefix_append sep t)
      rw [hst] at hp
      simp [takeBeforeFirst, hp]
  | cons c B' ih =>
    have hc : ¬ sep.isPrefixOf ((c :: B') ++ (sep ++ t)) = true :=
      h (c :: B') List.suffix_rfl (by simp)
    rw [List.cons_append]
    rw [List.cons_append] at hc
    simp only [takeBeforeFirst]
    rw [if_neg hc]
    have ih2 := ih (fun u hu hne => h u (hu.trans (List.suffix_cons c B')) hne)
    rw [ih2]

theorem autoSep_ne_nil : autoSep ≠ [] := by decide

theorem autoSep_head (t : List Char) : (autoSep ++ t).head? = some ' ' := rfl

theorem autoSep_no_straddle (B t : List Char) (hB : ¬ autoSep <:+: B) :
    ∀ u, u <:+ B → u ≠ [] → ¬ autoSep.isPrefixOf (u ++ (autoSep ++ t)) = true := by
  intro u hu hne hpre
  rw [ List.isPrefixOf_iff_prefix] at hpre
  by_cases hlen : autoSep.length ≤ u.length
  · have hup : autoSep <+: u :=
      List.prefix_of_prefix_length_le hpre (List.prefix_append u _) hlen
    obtain ⟨w, hw⟩ := hup
    obtain ⟨a, ha⟩ := hu
    apply hB
    refine ⟨a, w, ?_⟩
    rw [List.append_assoc, hw, ha]
  · push_neg at hlen
    have hup : u <+: autoSep :=
      List.prefix_of_prefix_length_le (List.prefix_append u _) hpre (le_of_lt hlen)
    obtain ⟨w, hw⟩ := hup
    have hwpre : w <+: autoSep ++ t := by
      nth_rewrite 1 [← hw] at hpre
      exact (List.prefix_append_right_inj u).mp hpre
    have hdrop : autoSep.drop u.length = w := by
      conv_lhs => rw [← hw]
      exact List.drop_left u w
    have hwne : w ≠ [] := by
      intro hwnil
      rw [hwnil, List.append_nil] at hw
      rw [hw] at hlen
      exact lt_irrefl _ hlen
    have hwhead : w.head? = some ' ' := by
      obtain ⟨r, hr⟩ := hwpre
      have hh := congrArg List.head? hr
      rw [autoSep_head] at hh
      cases w with
      | nil => exact absurd rfl hwne
      | cons cw w' => simpa using hh
    have hk1 : 0 < u.length := List.length_pos.mpr hne
    have hdec : ∀ k, k < autoSep.length → 0 < k →
        (autoSep.drop k).head? ≠ some ' ' := by decide
    exact hdec u.length hlen hk1 (by rw [hdrop]; exact hwhead)

theorem trimTake_stable (sl t : List Char) :
    takeBeforeFirst autoSep (trimChars (takeBeforeFirst autoSep sl) ++ (autoSep ++ t)) =
      trimChars (takeBeforeFirst autoSep sl) := by
  apply takeBeforeFirst_append
  apply autoSep_no_straddle
  intro hinf
  exact not_infix_takeBeforeFirst autoSep autoSep_ne_nil sl
    (hinf.trans (trimChars_within (takeBeforeFirst autoSep sl)))

/-- Stripping the separator from a description that was produced by a
previous rewrite recovers the same base: the core of the patcher's
idempotence. -/
theorem stripAutoSuffix_append (s v : String) :
    stripAutoSuffix (stripAutoSuffix s ++ autoSuffix v) = stripAutoSuffix s := by
  simp only [stripAutoSuffix]
  apply congrArg String.mk
  have hd : (String.mk (trimChars (takeBeforeFirst autoSep s.data)) ++ autoSuffix v).data =
      trimChars (takeBeforeFirst autoSep s.data) ++
        (autoSep ++ (" for Minecraft ".data ++ (v.data ++ ")".data))) := rfl
  rw [hd, trimTake_stable s.data _, trimChars_idem]

theorem lookupField_setField_self (fs : List (String × Json)) (k : String) (v : Json) :
    lookupField (setField fs k v) k = some v := by
  induction fs with
  | nil => simp [setField, lookupField]
  | cons hd tl ih =>
    obtain ⟨k0, v0⟩ := hd
    by_cases h : k0 = k
    · simp [setField, lookupField, h]
    · simp [setField, lookupField, h, ih]

theorem lookupField_setField_ne (fs : List (String × Json)) (k k2 : String) (v : Json)
    (h : k2 ≠ k) : lookupField (setField fs k v) k2 = lookupField fs k2 := by
  have hk : ¬ k = k2 := fun hc => h hc.symm
  induction fs with
  | nil => simp [setField, lookupField, hk]
  | cons hd tl ih =>
    obtain ⟨k0, v0⟩ := hd
    by_cases h0 : k0 = k
    · subst h0
      simp [setField, lookupField, hk]
    · simp [setField, lookupField, h0, ih]

theorem setField_of_lookup_eq (fs : List (String × Json)) (k : String) (v : Json)
    (h : lookupField fs k = some v) : setField fs k v = fs := by
  induction fs with
  | nil => simp [lookupField] at h
  | cons hd tl ih =>
    obtain ⟨k0, v0⟩ := hd
    by_cases h0 : k0 = k
    · simp only [lookupField, if_pos h0] at h
      cases h
      simp [setField, h0]
    · simp only [lookupField, if_neg h0] at h
      simp [setField, h0, ih h]

/-- C8: whenever `update_pack_mcmeta` reports failure (missing file,
invalid JSON, top-level value without a usable "pack" object, or a
non-string description), the manifest file is left entirely unchanged:
the failure returns happen before the write. -/
theorem claim_patcher_failure_atomic (f : McmetaFile) (v : String) (pf : Int)
    (bd : Option String) (h : (update_pack_mcmeta f v pf bd).1 = false) :
    (update_pack_mcmeta f v pf bd).2 = f := by
  cases f with
  | missing => rfl
  | invalidJson => rfl
  | parsed j =>
    cases j with
    | null => rfl
    | bool b => rfl
    | num n => rfl
    | str s => rfl
    | arr xs => rfl
    | obj fields =>
      cases hpack : lookupField fields "pack" with
      | none => simp [update_pack_mcmeta, hpack]
      | some pj =>
        cases pj with
        | null => simp [update_pack_mcmeta, hpack]
        | bool b => simp [update_pack_mcmeta, hpack]
        | num n => simp [update_pack_mcmeta, hpack]
        | str s => simp [update_pack_mcmeta, hpack]
        | arr xs => simp [update_pack_mcmeta, hpack]
        | obj packFields =>
          cases hdesc : newDescription
              (setField packFields "pack_format" (Json.num pf)) bd v with
          | none => simp [update_pack_mcmeta, hpack, hdesc]
          | some d =>
            exfalso
            rw [update_pack_mcmeta] at h
            simp only [hpack, hdesc] at h
            cases h

theorem claim_patcher_failure_atomic_witness :
    (update_pack_mcmeta McmetaFile.missing "1.20" 15 none).2 = McmetaFile.missing :=
  claim_patcher_failure_atomic McmetaFile.missing "1.20" 15 none rfl

/-- C10: with no explicit base description and no "description" field in
the "pack" object, the base defaults to "Resource Pack": the rewritten
description is exactly
`"Resource Pack (Auto-updated for Minecraft <target>)"` and the call
reports success. -/
theorem claim_patcher_default_description (fields packFields : List (String × Json))
    (v : String) (pf : Int)
    (hpack : lookupField fields "pack" = some (Json.obj packFields))
    (hdesc : lookupField packFields "description" = none) :
    (update_pack_mcmeta (McmetaFile.parsed (Json.obj fields)) v pf none).1 = true ∧
    manifestDescription
        (update_pack_mcmeta (McmetaFile.parsed (Json.obj fields)) v pf none).2 =
      some ("Resource Pack (Auto-updated for Minecraft " ++ v ++ ")") := by
  have hdesc1 : lookupField (setField packFields "pack_format" (Json.num pf))
      "description" = none := by
    rw [lookupField_setField_ne _ _ _ _ (by decide)]
    exact hdesc
  have hnd : newDescription (setField packFields "pack_format" (Json.num pf)) none v =
      some (stripAutoSuffix "Resource Pack" ++ autoSuffix v) := by
    simp [newDescription, hdesc1]
  constructor
  · rw [update_pack_mcmeta]
    simp only [hpack, hnd]
  · rw [update_pack_mcmeta]
    simp only [hpack, hnd]
    rw [manifestDescription]
    simp only [lookupField_setField_self]
    rfl

theorem claim_patcher_default_description_witness :
    manifestDescription
        (update_pack_mcmeta (McmetaFile.parsed (Json.obj [("pack", Json.obj [])]))
          "1.21" 22 none).2 =
      some ("Resource Pack (Auto-updated for Minecraft " ++ "1.21" ++ ")") :=
  (claim_patcher_default_description [("pack", Json.obj [])] [] "1.21" 22 rfl rfl).2

theorem update_parsed_obj_eq (fields packFields : List (String × Json))
    (v : String) (pf : Int) (bd : Option String)
    (hpack : lookupField fields "pack" = some (Json.obj packFields)) :
    update_pack_mcmeta (McmetaFile.parsed (Json.obj fields)) v pf bd =
      match newDescription (setField packFields "pack_format" (Json.num pf)) bd v with
      | some d => (true, McmetaFile.parsed (Json.obj (setField fields "pack"
          (Json.obj (setField (setField packFields "pack_format" (Json.num pf))
            "description" (Json.str d))))))
      | none => (false, McmetaFile.parsed (Json.obj fields)) := by
  rw [update_pack_mcmeta, hpack]

/-- C6: the Metadata Patcher is idempotent when no explicit base
description is supplied: if a first call succeeded and produced the file
`f1`, a second call on `f1` with the same target version (and format)
succeeds and returns `f1` unchanged — in particular the description keeps
exactly one `"(Auto-updated for Minecraft ...)"` suffix instead of
accumulating a chain. -/
theorem claim_patcher_idempotent (f f1 : McmetaFile) (v : String) (pf : Int)
    (h : update_pack_mcmeta f v pf none = (true, f1)) :
    update_pack_mcmeta f1 v pf none = (true, f1) := by
  cases f with
  | missing => cases h
  | invalidJson => cases h
  | parsed j =>
    cases j with
    | null => cases h
    | bool b => cases h
    | num n => cases h
    | str s => cases h
    | arr xs => cases h
    | obj fields =>
      cases hpack : lookupField fields "pack" with
      | none => simp [update_pack_mcmeta, hpack] at h
      | some pj =>
        cases pj with
        | null => simp [update_pack_mcmeta, hpack] at h
        | bool b => simp [update_pack_mcmeta, hpack] at h
        | num n => simp [update_pack_mcmeta, hpack] at h
        | str s => simp [update_pack_mcmeta, hpack] at h
        | arr xs => simp [update_pack_mcmeta, hpack] at h
        | obj packFields =>
          rw [update_parsed_obj_eq fields packFields v pf none hpack] at h
          cases hdesc : newDescription
              (setField packFields "pack_format" (Json.num pf)) none v with
          | none => rw [hdesc] at h; simp at h
          | some d =>
            rw [hdesc] at h
            have hf1 : f1 = McmetaFile.parsed (Json.obj (setField fields "pack"
                (Json.obj (setField (setField packFields "pack_format" (Json.num pf))
                  "description" (Json.str d))))) :=
              (congrArg Prod.snd h).symm
            have hd_eq : stripAutoSuffix d ++ autoSuffix v = d := by
              rw [newDescription] at hdesc
              cases hld : lookupField (setField packFields "pack_format" (Json.num pf))
                  "description" with
              | none =>
                rw [hld] at hdesc
                have hdv : d = stripAutoSuffix "Resource Pack" ++ autoSuffix v := by
                  cases hdesc; rfl
                rw [hdv, stripAutoSuffix_append]
              | some jv =>
                rw [hld] at hdesc
                cases jv with
                | str s0 =>
                  have hdv : d = stripAutoSuffix s0 ++ autoSuffix v := by
                    cases hdesc; rfl
                  rw [hdv, stripAutoSuffix_append]
                | null => cases hdesc
                | bool b => cases hdesc
                | num n => cases hdesc
                | arr xs => cases hdesc
                | obj o => cases hdesc
            subst hf1
            set p1 := setField packFields "pack_format" (Json.num pf) with hp1
            set p2 := setField p1 "description" (Json.str d) with hp2
            have hlook1 : lookupField (setField fields "pack" (Json.obj p2)) "pack" =
                some (Json.obj p2) := lookupField_setField_self fields "pack" (Json.obj p2)
            have hpf2 : setField p2 "pack_format" (Json.num pf) = p2 := by
              apply setField_of_lookup_eq
              rw [hp2, lookupField_setField_ne _ _ _ _ (by decide), hp1]
              exact lookupField_setField_self packFields "pack_format" (Json.num pf)
            have hld2 : lookupField p2 "description" = some (Json.str d) := by
              rw [hp2]
              exact lookupField_setField_self p1 "description" (Json.str d)
            have hnd2 : newDescription (setField p2 "pack_format" (Json.num pf)) none v =
                some d := by
              rw [hpf2]
              simp only [newDescription, hld2, hd_eq]
            have hset2 : setField (setField p2 "pack_format" (Json.num pf))
                "description" (Json.str d) = p2 := by
              rw [hpf2]
              exact setField_of_lookup_eq p2 "description" (Json.str d) hld2
            rw [update_parsed_obj_eq (setField fields "pack" (Json.obj p2)) p2 v pf none
              hlook1]
            simp only [hnd2]
            rw [hset2, setField_of_lookup_eq _ "pack" (Json.obj p2) hlook1]

theorem claim_patcher_idempotent_witness :
    update_pack_mcmeta mcmetaDemoOut "1.20.1" 15 none = (true, mcmetaDemoOut) :=
  claim_patcher_idempotent mcmetaDemo mcmetaDemoOut "1.20.1" 15 (by rfl)

/-- C7, counterexample: the claim says that with no resolvable version
source the run stops with a non-zero outcome and does not succeed with an
empty version string; but `read_version.main` (one of the claim's cited
functions) prints the empty string and exits 0 on exactly that input. -/
theorem claim_no_source_counterexample :
    read_version_main noSources = { stdout := "", exit_code := 0 } := by
  decide

/-- C7, amended: `resolve_versions.get_pack_version` does stop the run
with exit code 1 and the diagnostic message when no source is resolvable
(empty or unset `PACK_VERSION`, no `VERSION` file in either location),
producing no version output; `read_version.main`, by contrast, prints an
empty string and exits 0 — it succeeds with an empty version string
rather than stopping. -/
theorem claim_no_source_behavior :
    (∀ src : PackVersionSources,
      (src.env_pack_version = none ∨ src.env_pack_version = some "") →
      src.cwd_version_file = none →
      src.automation_version_file = none →
      get_pack_version src = Except.error
        "ERROR: VERSION not found. Provide PACK_VERSION env or a VERSION file.") ∧
    read_version_main noSources = { stdout := "", exit_code := 0 } := by
  constructor
  · intro src henv hcwd hauto
    have hfiles : get_pack_version_files src = Except.error
        "ERROR: VERSION not found. Provide PACK_VERSION env or a VERSION file." := by
      rw [get_pack_version_files, hcwd, hauto]
    rcases henv with henv | henv <;>
      rw [get_pack_version, henv] <;>
      simp [hfiles]
  · decide

theorem claim_no_source_behavior_witness :
    get_pack_version
        { env_pack_version := none, cwd_version_file := none,
          automation_version_file := none } =
      Except.error "ERROR: VERSION not found. Provide PACK_VERSION env or a VERSION file." :=
  claim_no_source_behavior.1
    { env_pack_version := none, cwd_version_file := none,
      automation_version_file := none }
    (Or.inl rfl) rfl rfl
